import Mathlib

/-!
Shallow embedding of the price/metadata retrieval-and-caching layer of
`app_Version2.py` from the smartstock-analyzer repository.

Python strings are modelled as lists of Unicode code points (`List Nat`);
Python floats as rationals; Python dicts either as functions into `Option`
(when only lookup matters) or as insertion-ordered association lists (for
the response object, whose key order is observable).  Every place where the
source code talks to the network is modelled by an explicit oracle argument
describing the upstream provider's behaviour, including the behaviours
where it raises; consequently all functions below are total, mirroring the
source's catch-at-point-of-use error handling.
-/

/-- A Python string, as its list of character codes. -/
abbrev PyStr := List Nat

/-- The whitespace test used by `str.strip`, restricted to the ASCII
whitespace characters (space, TAB, LF, VT, FF, CR). -/
def isSpaceCode (c : Nat) : Bool :=
  decide (c = 32 ∨ c = 9 ∨ c = 10 ∨ c = 11 ∨ c = 12 ∨ c = 13)

/-- Python `str.upper` on a single character code: ASCII lowercase is shifted to
uppercase, everything else is unchanged. -/
def upCode (c : Nat) : Nat :=
  if 97 ≤ c ∧ c ≤ 122 then c - 32 else c

/-- Python `s.upper()`. -/
def pyUpper (s : PyStr) : PyStr := s.map upCode

/-- Python `s.lstrip()`: drop leading whitespace. -/
def lstripL (s : PyStr) : PyStr := s.dropWhile isSpaceCode

/-- Python `s.rstrip()`: drop trailing whitespace. -/
def rstripL (s : PyStr) : PyStr := (s.reverse.dropWhile isSpaceCode).reverse

/-- Python `s.strip()`. -/
def pyStrip (s : PyStr) : PyStr := rstripL (lstripL s)

/-- Python `s.endswith(suf)`. -/
def pyEndsWith (s suf : PyStr) : Bool := decide (suf <:+ s)

/-- The code points of the string ".NS". -/
def dotNS : PyStr := [46, 78, 83]

/-- The code points of the string ".BO". -/
def dotBO : PyStr := [46, 66, 79]

/-- The code points of the string "-USD". -/
def dashUSD : PyStr := [45, 85, 83, 68]

/-- Model of `to_symbol` (app_Version2.py, lines 25-29):
`ticker = ticker.strip().upper()`; if it ends with `.NS` or `.BO` it is
returned unchanged, otherwise `.NS` is appended. -/
def to_symbol (ticker : PyStr) : PyStr :=
  let t := pyUpper (pyStrip ticker)
  if pyEndsWith t dotNS || pyEndsWith t dotBO then t else t ++ dotNS

-- ## Prices: floats as rationals, Python rounding

/-- Floor of a rational, computably. -/
def ratFloor (q : ℚ) : ℤ := q.num.fdiv q.den

/-- Round-half-to-even on a rational, as Python's builtin `round` behaves
on exactly represented values. -/
def roundHalfEven (q : ℚ) : ℤ :=
  if q - ratFloor q < 1 / 2 then ratFloor q
  else if 1 / 2 < q - ratFloor q then ratFloor q + 1
  else if ratFloor q % 2 = 0 then ratFloor q else ratFloor q + 1

/-- Python `round(q, n)`. -/
def pyRound (q : ℚ) (n : ℕ) : ℚ := (roundHalfEven (q * 10 ^ n) : ℚ) / 10 ^ n

/-- One entry of the dict built by `get_latest_prices`:
`{'price': ..., 'change_pct': ...}`; `none` models Python `None`. -/
structure Quote where
  price : Option ℚ
  change_pct : Option ℚ
deriving DecidableEq

/-- The dict `{'price': None, 'change_pct': None}`. -/
def null_quote : Quote := ⟨none, none⟩

/-- Python `latest = closes[-1]` (meaningful only for nonempty `closes`). -/
def latest_of (closes : List ℚ) : ℚ := closes.getLastD 0

/-- Python `prev = closes[-2] if len(closes) > 1 else latest`. -/
def prev_of (closes : List ℚ) : ℚ :=
  if 1 < closes.length then closes.getD (closes.length - 2) 0 else latest_of closes

/-- The latest/previous/percent-change computation the source inlines at
lines 82-85, 98-101, 110-113 and 123-126 of app_Version2.py:
`change_pct = round(((latest - prev) / prev) * 100, 2) if prev != 0 else 0.0`,
`price = round(float(latest), 4)`.  Meaningful only for nonempty `closes`,
matching the emptiness guards at each of those four sites. -/
def quote_of_closes (closes : List ℚ) : Quote :=
  { price := some (pyRound (latest_of closes) 4),
    change_pct := some (if prev_of closes ≠ 0 then
        pyRound (((latest_of closes - prev_of closes) / prev_of closes) * 100) 2 else 0) }

/-- Outcome of the batch call `yf.download(...)` (line 72), as the code
observes it: the call can raise, return an empty frame, return a
MultiIndex frame (several tickers: a possibly-missing Close column per
symbol, each column's series given after `dropna()`), or return a
single-ticker frame whose Close series (after `dropna()`) is given
directly. -/
inductive BatchData where
  | raised
  | emptyResult
  | multi (close : PyStr → Option (List ℚ))
  | single (close : List ℚ)

/-- Outcome of one per-symbol call `yf.Ticker(s).history(...)` (lines
79-80 and 120-121): the call can raise, or return a history whose Close
column is the given list; `returned []` models both `hist is None` and an
empty frame, which the guards at lines 81 and 122 treat alike. -/
inductive HistResult where
  | raised
  | returned (closes : List ℚ)

/-- The `sym_map` dict of get_latest_prices (lines 63-68):
`sym_map[to_symbol(t)] = t.upper()`, later tickers overwriting earlier
ones; modelled as a total function because the code only reads it at
resolved symbols, which are always present. -/
def sym_map_of (tickers : List PyStr) : PyStr → PyStr :=
  tickers.foldl (fun m t => fun k => if k = to_symbol t then pyUpper t else m k)
    (fun _ => [])

/-- The `symbols` list of get_latest_prices (lines 63-68). -/
def symbols_of (tickers : List PyStr) : List PyStr := tickers.map to_symbol

/-- One iteration of the per-symbol fallback loop at lines 77-88 (taken
when the batch frame is empty).  The accumulator carries the `results`
dict and, as instrumentation, the list of symbols for which an individual
fetch has been attempted.  Note that the source writes nothing when the
individual history exists but is empty — there is no `else` for line 81. -/
def fallback_step_empty (hist : PyStr → HistResult) (sym_map : PyStr → PyStr)
    (acc : (PyStr → Option Quote) × List PyStr) (s : PyStr) :
    (PyStr → Option Quote) × List PyStr :=
  match hist s with
  | .raised => (fun k => if k = sym_map s then some null_quote else acc.1 k, acc.2 ++ [s])
  | .returned closes =>
      if 0 < closes.length then
        (fun k => if k = sym_map s then some (quote_of_closes closes) else acc.1 k,
         acc.2 ++ [s])
      else (acc.1, acc.2 ++ [s])

/-- One iteration of the per-symbol fallback loop at lines 118-131 (taken
when the batch call raises).  Unlike the lines 77-88 loop, a
present-but-empty history explicitly writes a null record here (lines
127-128). -/
def fallback_step_error (hist : PyStr → HistResult) (sym_map : PyStr → PyStr)
    (acc : (PyStr → Option Quote) × List PyStr) (s : PyStr) :
    (PyStr → Option Quote) × List PyStr :=
  match hist s with
  | .raised => (fun k => if k = sym_map s then some null_quote else acc.1 k, acc.2 ++ [s])
  | .returned closes =>
      if 0 < closes.length then
        (fun k => if k = sym_map s then some (quote_of_closes closes) else acc.1 k,
         acc.2 ++ [s])
      else (fun k => if k = sym_map s then some null_quote else acc.1 k, acc.2 ++ [s])

/-- One iteration of the MultiIndex branch at lines 92-103: a Close column
present with data gives a quote; a column present but empty after dropna
(lines 95-96) or absent altogether (lines 102-103) gives a null record
directly — no individual fetch happens in this branch. -/
def multi_step (close : PyStr → Option (List ℚ)) (sym_map : PyStr → PyStr)
    (results : PyStr → Option Quote) (s : PyStr) : PyStr → Option Quote :=
  match close s with
  | some series =>
      if series.length = 0 then fun k => if k = sym_map s then some null_quote else results k
      else fun k => if k = sym_map s then some (quote_of_closes series) else results k
  | none => fun k => if k = sym_map s then some null_quote else results k

/-- The value of `get_latest_prices`, with two pieces of instrumentation:
which symbols were fetched individually, and whether the batch download
was attempted at all. -/
structure FetchOutcome where
  results : PyStr → Option Quote
  fetched : List PyStr
  batch_attempted : Bool

/-- Model of `get_latest_prices` (app_Version2.py lines 56-131): empty input short-
circuits to an empty dict; otherwise resolve the tickers and dispatch on
the outcome of the batch download.  In the single-ticker (non-MultiIndex)
shape only `symbols[0]` receives an entry (lines 104-113). -/
def get_latest_prices (batch : BatchData) (hist : PyStr → HistResult)
    (tickers : List PyStr) : FetchOutcome :=
  if tickers.isEmpty then ⟨fun _ => none, [], false⟩
  else
    let symbols := symbols_of tickers
    let sym_map := sym_map_of tickers
    match batch with
    | .raised =>
        let out := symbols.foldl (fallback_step_error hist sym_map) (fun _ => none, [])
        ⟨out.1, out.2, true⟩
    | .emptyResult =>
        let out := symbols.foldl (fallback_step_empty hist sym_map) (fun _ => none, [])
        ⟨out.1, out.2, true⟩
    | .multi close =>
        ⟨symbols.foldl (multi_step close sym_map) (fun _ => none), [], true⟩
    | .single close =>
        if close.length = 0 then
          ⟨fun k => if k = sym_map (symbols.headD []) then some null_quote else none,
           [], true⟩
        else
          ⟨fun k => if k = sym_map (symbols.headD []) then some (quote_of_closes close)
            else none, [], true⟩

-- ## Company-info cache (fetch_company_info)

/-- The fields of `yf.Ticker(symbol).info` that fetch_company_info reads;
`none` models an absent key. -/
structure TickerMeta where
  longName : Option PyStr
  shortName : Option PyStr
  longBusinessSummary : Option PyStr
  sector : Option PyStr

/-- The `info` dict built by fetch_company_info: display name and
description. -/
structure CompanyInfo where
  name : PyStr
  description : PyStr
deriving DecidableEq

/-- One entry of `company_info_cache`: `{'info': ..., 'fetched_at': ...}`. -/
structure CacheEntry where
  info : CompanyInfo
  fetched_at : ℚ

/-- The cache `company_info_cache`, a dict keyed by resolved symbol. -/
abbrev Cache := PyStr → Option CacheEntry

/-- The constant `COMPANY_INFO_TTL = 60 * 60` (line 34), in seconds. -/
def COMPANY_INFO_TTL : ℚ := 60 * 60

/-- Python `a or b` for an optional string `a`: `None` and the empty
string are falsy and fall through to `b`. -/
def pyOr (a : Option PyStr) (b : PyStr) : PyStr :=
  match a with
  | some s => if s = [] then b else s
  | none => b

/-- The cache-miss path of fetch_company_info (lines 43-53): read the
provider's metadata (`oracle symbol = none` models any raise inside the
`try` block), build the info dict — falling back to
`{'name': symbol, 'description': ''}` on failure — and store it in the
cache stamped `now`, unconditionally.  The chain at line 47 starts from a
freshly created empty dict, so its `info.get('name')` is always `None`. -/
def fetch_company_info_miss (oracle : PyStr → Option TickerMeta) (cache : Cache)
    (now : ℚ) (symbol : PyStr) : CompanyInfo × Cache × Bool :=
  let info : CompanyInfo :=
    match oracle symbol with
    | some m => { name := pyOr m.longName (pyOr m.shortName symbol),
                  description := pyOr m.longBusinessSummary (pyOr m.sector []) }
    | none => { name := symbol, description := [] }
  (info, fun k => if k = symbol then some ⟨info, now⟩ else cache k, true)

/-- Model of `fetch_company_info` (app_Version2.py lines 36-54): serve a cache
entry younger than the TTL unchanged, otherwise fetch and restamp.  The
third component records whether an upstream fetch was attempted. -/
def fetch_company_info (oracle : PyStr → Option TickerMeta) (cache : Cache)
    (now : ℚ) (symbol : PyStr) : CompanyInfo × Cache × Bool :=
  match cache symbol with
  | some entry =>
      if now - entry.fetched_at < COMPANY_INFO_TTL then (entry.info, cache, false)
      else fetch_company_info_miss oracle cache now symbol
  | none => fetch_company_info_miss oracle cache now symbol

-- ## The /prices route (lines 140-170)

/-- One record of the /prices response (lines 163-169).  All five fields
of the spec's contract are present by construction. -/
structure PriceRec where
  symbol : PyStr
  name : PyStr
  description : PyStr
  price : Option ℚ
  change_pct : Option ℚ
deriving DecidableEq

/-- Python dict assignment `d[k] = v` on an insertion-ordered dict:
overwrite in place when the key exists, else append. -/
def dictInsert (d : List (PyStr × PriceRec)) (k : PyStr) (v : PriceRec) :
    List (PyStr × PriceRec) :=
  if d.any (fun p => decide (p.1 = k)) then d.map (fun p => if p.1 = k then (k, v) else p)
  else d ++ [(k, v)]

/-- Dict lookup. -/
def dictGet (d : List (PyStr × PriceRec)) (k : PyStr) : Option PriceRec :=
  (d.find? (fun p => decide (p.1 = k))).map Prod.snd

/-- Python `list(d.keys())`, in insertion order. -/
def dictKeys (d : List (PyStr × PriceRec)) : List PyStr := d.map Prod.fst

/-- The cap `MAX = 200` (line 151). -/
def MAX : ℕ := 200

/-- One iteration of the response-building loop at lines 159-169: resolve
the ticker, read-or-refresh the metadata cache, look the ticker up in the
price dict defaulting to `{'price': None, 'change_pct': None}` (line 162),
and write the five-field record with the description truncated to 600
characters (line 166). -/
def prices_step (price_data : PyStr → Option Quote)
    (oracle : PyStr → Option TickerMeta) (now : ℚ)
    (acc : List (PyStr × PriceRec) × Cache) (t : PyStr) :
    List (PyStr × PriceRec) × Cache :=
  let sym := to_symbol t
  let fci := fetch_company_info oracle acc.2 now sym
  let pdict := (price_data t).getD null_quote
  (dictInsert acc.1 t
    { symbol := sym, name := fci.1.name, description := fci.1.description.take 600,
      price := pdict.price, change_pct := pdict.change_pct },
   fci.2.1)

/-- The `/prices` handler (lines 140-170), taking the already-parsed
ticker list (the query-string parsing at lines 143-148 belongs to the
excluded presentation layer): truncate to `MAX`, batch-fetch prices, then
merge with the cached metadata.  Returns the response dict and the final
cache. -/
def prices (batch : BatchData) (hist : PyStr → HistResult)
    (oracle : PyStr → Option TickerMeta) (cache : Cache) (now : ℚ)
    (tickers0 : List PyStr) : List (PyStr × PriceRec) × Cache :=
  let tickers := if MAX < tickers0.length then tickers0.take MAX else tickers0
  let price_data := (get_latest_prices batch hist tickers).results
  tickers.foldl (prices_step price_data oracle now) ([], cache)

-- ## Concrete fixtures used by witnesses

/-- The string "T". -/
def tickT : PyStr := [84]

/-- The string "U". -/
def tickU : PyStr := [85]

/-- An upstream that always raises on per-symbol history calls. -/
def histAllRaised : PyStr → HistResult := fun _ => .raised

/-- An upstream whose metadata read always raises. -/
def metaAllRaised : PyStr → Option TickerMeta := fun _ => none

/-- An empty company-info cache. -/
def cacheEmpty : Cache := fun _ => none

/-- A cache holding one entry for "T" fetched at time 0. -/
def cacheWithT : Cache :=
  fun k => if k = tickT then some ⟨⟨tickT, []⟩, 0⟩ else none

-- ## Character-level lemmas

theorem isSpaceCode_upCode (c : Nat) : isSpaceCode (upCode c) = isSpaceCode c := by
  unfold upCode
  split
  · rename_i h
    have e1 : isSpaceCode (c - 32) = false := by simp [isSpaceCode]; omega
    have e2 : isSpaceCode c = false := by simp [isSpaceCode]; omega
    rw [e1, e2]
  · rfl

theorem upCode_idem (c : Nat) : upCode (upCode c) = upCode c := by
  unfold upCode
  split
  · rename_i h
    rw [if_neg (by omega)]
  · rfl

theorem pyUpper_idem (s : PyStr) : pyUpper (pyUpper s) = pyUpper s := by
  simp only [pyUpper, List.map_map]
  exact List.map_congr_left (fun a _ => upCode_idem a)

-- ## dropWhile / strip lemmas

theorem dropWhile_self_idem (p : Nat → Bool) (l : List Nat) :
    (l.dropWhile p).dropWhile p = l.dropWhile p := by
  induction l with
  | nil => rfl
  | cons a t ih =>
    by_cases h : p a = true
    · rw [List.dropWhile_cons, if_pos h]; exact ih
    · rw [List.dropWhile_cons, if_neg h, List.dropWhile_cons, if_neg h]

theorem dropWhile_suffix_aux (p : Nat → Bool) (l : List Nat) :
    ∃ u, u ++ l.dropWhile p = l := by
  induction l with
  | nil => exact ⟨[], rfl⟩
  | cons a t ih =>
    by_cases h : p a = true
    · obtain ⟨u, hu⟩ := ih
      exact ⟨a :: u, by rw [List.dropWhile_cons, if_pos h, List.cons_append, hu]⟩
    · exact ⟨[], by rw [List.dropWhile_cons, if_neg h]; rfl⟩

theorem head_not_space_of_lstrip_eq {a : Nat} {t : List Nat}
    (h : lstripL (a :: t) = a :: t) : isSpaceCode a = false := by
  cases ha : isSpaceCode a with
  | false => rfl
  | true =>
    exfalso
    have h2 : lstripL t = a :: t := by
      have e : lstripL (a :: t) = lstripL t := by
        show (a :: t).dropWhile isSpaceCode = t.dropWhile isSpaceCode
        rw [List.dropWhile_cons, if_pos ha]
      rw [← e, h]
    obtain ⟨u, hu⟩ := dropWhile_suffix_aux isSpaceCode t
    have hu2 : u ++ (a :: t) = t := by rw [← h2]; exact hu
    have hlen := congrArg List.length hu2
    simp at hlen
    omega

theorem lstrip_cons_of_not_space {a : Nat} (t : List Nat) (h : isSpaceCode a = false) :
    lstripL (a :: t) = a :: t := by
  rw [lstripL, List.dropWhile_cons, if_neg (by simp [h])]

theorem lstripL_idem (s : PyStr) : lstripL (lstripL s) = lstripL s :=
  dropWhile_self_idem isSpaceCode s

theorem rstripL_idem (s : PyStr) : rstripL (rstripL s) = rstripL s := by
  unfold rstripL
  rw [List.reverse_reverse, dropWhile_self_idem]

theorem lstrip_rstrip_of_lstrip_eq {m : PyStr} (h : lstripL m = m) :
    lstripL (rstripL m) = rstripL m := by
  obtain ⟨u, hu⟩ := dropWhile_suffix_aux isSpaceCode m.reverse
  have hm : m = rstripL m ++ u.reverse := by
    have h2 := congrArg List.reverse hu
    simp only [List.reverse_append, List.reverse_reverse] at h2
    exact h2.symm
  cases hr : rstripL m with
  | nil => rfl
  | cons a t =>
    apply lstrip_cons_of_not_space
    have hm2 : m = a :: (t ++ u.reverse) := by rw [hm, hr]; rfl
    have h3 : lstripL (a :: (t ++ u.reverse)) = a :: (t ++ u.reverse) := by
      rw [← hm2]; exact h
    exact head_not_space_of_lstrip_eq h3

theorem pyStrip_idem (s : PyStr) : pyStrip (pyStrip s) = pyStrip s := by
  unfold pyStrip
  rw [lstrip_rstrip_of_lstrip_eq (lstripL_idem s), rstripL_idem]

theorem lstrip_pyUpper (s : PyStr) : lstripL (pyUpper s) = pyUpper (lstripL s) := by
  have hp : isSpaceCode ∘ upCode = isSpaceCode := funext isSpaceCode_upCode
  unfold lstripL pyUpper
  rw [List.dropWhile_map, hp]

theorem rstrip_pyUpper (s : PyStr) : rstripL (pyUpper s) = pyUpper (rstripL s) := by
  have hp : isSpaceCode ∘ upCode = isSpaceCode := funext isSpaceCode_upCode
  unfold rstripL pyUpper
  rw [← List.map_reverse, List.dropWhile_map, hp, List.map_reverse]

theorem pyStrip_pyUpper (s : PyStr) : pyStrip (pyUpper s) = pyUpper (pyStrip s) := by
  unfold pyStrip
  rw [lstrip_pyUpper, rstrip_pyUpper]

theorem norm_fix (t : PyStr) :
    pyUpper (pyStrip (pyUpper (pyStrip t))) = pyUpper (pyStrip t) := by
  rw [pyStrip_pyUpper, pyStrip_idem, pyUpper_idem]

theorem lstrip_norm (t : PyStr) :
    lstripL (pyUpper (pyStrip t)) = pyUpper (pyStrip t) := by
  rw [lstrip_pyUpper]
  congr 1
  exact lstrip_rstrip_of_lstrip_eq (lstripL_idem t)

theorem rstrip_append_dotNS (x : PyStr) : rstripL (x ++ dotNS) = x ++ dotNS := by
  unfold rstripL
  rw [List.reverse_append]
  show ((83 :: 78 :: 46 :: x.reverse).dropWhile isSpaceCode).reverse = x ++ dotNS
  rw [List.dropWhile_cons, if_neg (by decide)]
  simp [dotNS]

theorem lstrip_append_dotNS (t : PyStr) :
    lstripL (pyUpper (pyStrip t) ++ dotNS) = pyUpper (pyStrip t) ++ dotNS := by
  cases hu : pyUpper (pyStrip t) with
  | nil => decide
  | cons a x =>
    have h1 : lstripL (a :: x) = a :: x := by rw [← hu]; exact lstrip_norm t
    have h2 := head_not_space_of_lstrip_eq h1
    rw [List.cons_append]
    exact lstrip_cons_of_not_space _ h2

theorem pyUpper_append (x y : PyStr) : pyUpper (x ++ y) = pyUpper x ++ pyUpper y :=
  List.map_append upCode x y

theorem norm_append_fix (t : PyStr) :
    pyUpper (pyStrip (pyUpper (pyStrip t) ++ dotNS)) = pyUpper (pyStrip t) ++ dotNS := by
  have h1 : pyStrip (pyUpper (pyStrip t) ++ dotNS) = pyUpper (pyStrip t) ++ dotNS := by
    show rstripL (lstripL (pyUpper (pyStrip t) ++ dotNS)) = _
    rw [lstrip_append_dotNS, rstrip_append_dotNS]
  rw [h1, pyUpper_append, pyUpper_idem]
  congr 1

theorem to_symbol_def (x : PyStr) :
    to_symbol x =
      if pyEndsWith (pyUpper (pyStrip x)) dotNS || pyEndsWith (pyUpper (pyStrip x)) dotBO
      then pyUpper (pyStrip x) else pyUpper (pyStrip x) ++ dotNS := rfl

/-- C7: for every ticker string `t`, `to_symbol (to_symbol t) = to_symbol t` —
the symbol resolver is idempotent, and resolving an already-suffixed symbol
returns it unchanged. -/
theorem to_symbol_idempotent (t : PyStr) : to_symbol (to_symbol t) = to_symbol t := by
  by_cases hs : pyEndsWith (pyUpper (pyStrip t)) dotNS || pyEndsWith (pyUpper (pyStrip t)) dotBO
  · have h1 : to_symbol t = pyUpper (pyStrip t) := by rw [to_symbol_def, if_pos hs]
    rw [h1, to_symbol_def, norm_fix, if_pos hs, ← h1, h1]
  · have h1 : to_symbol t = pyUpper (pyStrip t) ++ dotNS := by rw [to_symbol_def, if_neg hs]
    have hend : pyEndsWith (pyUpper (pyStrip t) ++ dotNS) dotNS = true := by
      have hsuf : dotNS <:+ pyUpper (pyStrip t) ++ dotNS := ⟨pyUpper (pyStrip t), rfl⟩
      exact decide_eq_true hsuf
    rw [h1, to_symbol_def, norm_append_fix, if_pos (by rw [hend]; exact Bool.true_or _)]

/-- C6 counterexample: the input "BTC-USD" (code points below) ends, after
trimming and uppercasing, with the crypto-style suffix "-USD", yet
`to_symbol` does not return it unchanged: it appends ".NS".  The only
suffixes the code recognizes are ".NS" and ".BO". -/
theorem to_symbol_not_crypto_aware :
    pyEndsWith (pyUpper (pyStrip [66, 84, 67, 45, 85, 83, 68])) dashUSD = true ∧
    to_symbol [66, 84, 67, 45, 85, 83, 68] ≠ [66, 84, 67, 45, 85, 83, 68] := by
  constructor
  · decide
  · decide

/-- C6 (amended): for every input string that, after trimming and
uppercasing, ends with ".NS" or ".BO" — the only recognized exchange
suffixes — `to_symbol` returns the trimmed-uppercased input unchanged; for
every other input (crypto-style "-USD" symbols included) it appends ".NS". -/
theorem to_symbol_suffix_cases (t : PyStr) :
    (pyEndsWith (pyUpper (pyStrip t)) dotNS = true ∨
       pyEndsWith (pyUpper (pyStrip t)) dotBO = true →
      to_symbol t = pyUpper (pyStrip t)) ∧
    (pyEndsWith (pyUpper (pyStrip t)) dotNS = false →
      pyEndsWith (pyUpper (pyStrip t)) dotBO = false →
      to_symbol t = pyUpper (pyStrip t) ++ dotNS) := by
  constructor
  · intro h
    rw [to_symbol_def, if_pos]
    rcases h with h | h
    · rw [h]; exact Bool.true_or _
    · rw [h]; exact Bool.or_true _
  · intro h1 h2
    rw [to_symbol_def, if_neg]
    rw [h1, h2]
    simp

theorem to_symbol_suffix_cases_witness :
    to_symbol [84, 67, 83, 46, 78, 83] = [84, 67, 83, 46, 78, 83] ∧
    to_symbol [66, 84, 67, 45, 85, 83, 68] = [66, 84, 67, 45, 85, 83, 68, 46, 78, 83] := by
  constructor
  · rw [(to_symbol_suffix_cases [84, 67, 83, 46, 78, 83]).1 (Or.inl (by decide))]
    decide
  · rw [(to_symbol_suffix_cases [66, 84, 67, 45, 85, 83, 68]).2 (by decide) (by decide)]
    decide

-- ## Rounding lemmas

theorem pyRound_zero (n : ℕ) : pyRound 0 n = 0 := by
  simp [pyRound, roundHalfEven, ratFloor]

-- ## fetch_company_info basic lemmas

theorem fci_hit {oracle : PyStr → Option TickerMeta} {cache : Cache} {now : ℚ}
    {symbol : PyStr} {entry : CacheEntry} (hc : cache symbol = some entry)
    (h : now - entry.fetched_at < COMPANY_INFO_TTL) :
    fetch_company_info oracle cache now symbol = (entry.info, cache, false) := by
  simp only [fetch_company_info, hc]
  rw [if_pos h]

theorem fci_miss_none {oracle : PyStr → Option TickerMeta} {cache : Cache} {now : ℚ}
    {symbol : PyStr} (hc : cache symbol = none) :
    fetch_company_info oracle cache now symbol =
      fetch_company_info_miss oracle cache now symbol := by
  simp only [fetch_company_info, hc]

theorem fci_miss_stale {oracle : PyStr → Option TickerMeta} {cache : Cache} {now : ℚ}
    {symbol : PyStr} {entry : CacheEntry} (hc : cache symbol = some entry)
    (h : ¬ (now - entry.fetched_at < COMPANY_INFO_TTL)) :
    fetch_company_info oracle cache now symbol =
      fetch_company_info_miss oracle cache now symbol := by
  simp only [fetch_company_info, hc]
  rw [if_neg h]

theorem fci_miss_fail {oracle : PyStr → Option TickerMeta} {cache : Cache} {now : ℚ}
    {symbol : PyStr} (hfail : oracle symbol = none) :
    fetch_company_info_miss oracle cache now symbol =
      (⟨symbol, []⟩, fun k => if k = symbol then some ⟨⟨symbol, []⟩, now⟩ else cache k,
        true) := by
  simp only [fetch_company_info_miss, hfail]

-- ## C5: metadata cache TTL

/-- C5: a metadata cache entry fetched at time `T` is served unchanged —
with no upstream fetch and no cache mutation — by any request arriving
strictly before `T + TTL` (TTL = 3600 s), and a request arriving at or
after `T + TTL` attempts a new upstream fetch. -/
theorem fetch_company_info_ttl (oracle : PyStr → Option TickerMeta) (cache : Cache)
    (now : ℚ) (symbol : PyStr) (entry : CacheEntry)
    (hc : cache symbol = some entry) :
    (now < entry.fetched_at + COMPANY_INFO_TTL →
      fetch_company_info oracle cache now symbol = (entry.info, cache, false)) ∧
    (entry.fetched_at + COMPANY_INFO_TTL ≤ now →
      (fetch_company_info oracle cache now symbol).2.2 = true) := by
  constructor
  · intro h
    exact fci_hit hc (by linarith)
  · intro h
    rw [fci_miss_stale hc (by linarith)]
    rfl

theorem fetch_company_info_ttl_witness :
    fetch_company_info metaAllRaised cacheWithT 10 tickT =
      (⟨tickT, []⟩, cacheWithT, false) :=
  (fetch_company_info_ttl metaAllRaised cacheWithT 10 tickT ⟨⟨tickT, []⟩, 0⟩ rfl).1
    (by norm_num [COMPANY_INFO_TTL])

-- ## C8: metadata failure fallback and unconditional store

/-- C8: for a symbol whose metadata fetch fails (the upstream read raises),
fetch_company_info synthesizes the fallback record
`{'name': symbol, 'description': ''}`, stores it in the cache stamped with
the current time — as it stores any fetched record, unconditionally — and
any second request for that symbol within the TTL window performs no
upstream call and returns the fallback record unchanged. -/
theorem fetch_company_info_failure_fallback (oracle : PyStr → Option TickerMeta)
    (cache : Cache) (now : ℚ) (symbol : PyStr)
    (hfail : oracle symbol = none)
    (hmiss : (fetch_company_info oracle cache now symbol).2.2 = true) :
    (fetch_company_info oracle cache now symbol).1 = ⟨symbol, []⟩ ∧
    (fetch_company_info oracle cache now symbol).2.1 symbol =
      some ⟨⟨symbol, []⟩, now⟩ ∧
    ∀ (oracle2 : PyStr → Option TickerMeta) (now2 : ℚ),
      now2 - now < COMPANY_INFO_TTL →
      fetch_company_info oracle2 (fetch_company_info oracle cache now symbol).2.1
          now2 symbol =
        (⟨symbol, []⟩, (fetch_company_info oracle cache now symbol).2.1, false) := by
  have hm : fetch_company_info oracle cache now symbol =
      fetch_company_info_miss oracle cache now symbol := by
    cases hcs : cache symbol with
    | none => exact fci_miss_none hcs
    | some e =>
      by_cases hlt : now - e.fetched_at < COMPANY_INFO_TTL
      · rw [fci_hit hcs hlt] at hmiss
        simp at hmiss
      · exact fci_miss_stale hcs hlt
  rw [hm, fci_miss_fail hfail]
  refine ⟨rfl, by simp, ?_⟩
  intro oracle2 now2 h2
  exact @fci_hit oracle2
    (fun k => if k = symbol then some (⟨⟨symbol, []⟩, now⟩ : CacheEntry) else cache k)
    now2 symbol ⟨⟨symbol, []⟩, now⟩ (by simp) h2

theorem fetch_company_info_failure_fallback_witness :
    (fetch_company_info metaAllRaised cacheEmpty 0 tickT).1 = ⟨tickT, []⟩ :=
  (fetch_company_info_failure_fallback metaAllRaised cacheEmpty 0 tickT rfl rfl).1

-- ## C10: empty ticker list

/-- C10: for the empty ticker list, get_latest_prices returns the empty
dict without attempting the batch download or any individual fetch, and
the merged /prices response is the empty mapping with the cache untouched,
with no error — for every upstream behaviour. -/
theorem get_latest_prices_empty_tickers (batch : BatchData)
    (hist : PyStr → HistResult) (oracle : PyStr → Option TickerMeta)
    (cache : Cache) (now : ℚ) :
    (get_latest_prices batch hist []).batch_attempted = false ∧
    (get_latest_prices batch hist []).fetched = [] ∧
    (∀ k, (get_latest_prices batch hist []).results k = none) ∧
    prices batch hist oracle cache now [] = ([], cache) :=
  ⟨rfl, rfl, fun _ => rfl, rfl⟩

-- ## C4: the change-percent formula

theorem sym_map_of_single (t : PyStr) : sym_map_of [t] (to_symbol t) = pyUpper t := by
  simp [sym_map_of]

/-- C4: for a found (nonempty) close series, `change_pct` is
`(latest - previous) / previous * 100` rounded to two decimals; a previous
close of exactly zero yields `0.0` rather than an error or infinity; a
single-session series takes `previous = latest` and yields a 0% change.
The last conjunct ties the formula to the program: in the single-ticker
batch shape, `get_latest_prices` returns exactly this quote. -/
theorem change_pct_formula (closes : List ℚ) (hne : closes ≠ [])
    (hist : PyStr → HistResult) (t : PyStr) :
    (quote_of_closes closes).change_pct =
        some (if prev_of closes = 0 then 0
              else pyRound (((latest_of closes - prev_of closes) / prev_of closes) * 100) 2) ∧
    (prev_of closes = 0 → (quote_of_closes closes).change_pct = some 0) ∧
    (closes.length = 1 → (quote_of_closes closes).change_pct = some 0) ∧
    (get_latest_prices (.single closes) hist [t]).results (pyUpper t) =
      some (quote_of_closes closes) := by
  have hlz : ¬ (closes.length = 0) := fun h => hne (List.length_eq_zero.mp h)
  refine ⟨?_, ?_, ?_, ?_⟩
  · by_cases hp : prev_of closes = 0 <;> simp [quote_of_closes, hp]
  · intro hp
    simp [quote_of_closes, hp]
  · intro hlen
    have hprev : prev_of closes = latest_of closes := by
      simp [prev_of, hlen]
    simp [quote_of_closes, hprev, sub_self, zero_div, zero_mul, pyRound_zero]
  · simp only [get_latest_prices, List.isEmpty_cons, Bool.false_eq_true, if_false,
      symbols_of, List.map_cons, List.map_nil, List.headD_cons]
    rw [if_neg hlz]
    simp [sym_map_of_single]

theorem change_pct_formula_witness :
    (quote_of_closes [(5 : ℚ)]).change_pct = some 0 :=
  (change_pct_formula [(5 : ℚ)] (by simp) histAllRaised tickT).2.2.1 rfl

-- ## get_latest_prices fold lemmas

theorem fallback_step_error_log (hist : PyStr → HistResult) (sym_map : PyStr → PyStr)
    (acc : (PyStr → Option Quote) × List PyStr) (s : PyStr) :
    (fallback_step_error hist sym_map acc s).2 = acc.2 ++ [s] := by
  unfold fallback_step_error
  split
  · rfl
  · split <;> rfl

theorem fallback_step_empty_log (hist : PyStr → HistResult) (sym_map : PyStr → PyStr)
    (acc : (PyStr → Option Quote) × List PyStr) (s : PyStr) :
    (fallback_step_empty hist sym_map acc s).2 = acc.2 ++ [s] := by
  unfold fallback_step_empty
  split
  · rfl
  · split <;> rfl

theorem foldl_log_append
    {step : (PyStr → Option Quote) × List PyStr → PyStr →
      (PyStr → Option Quote) × List PyStr}
    (hstep : ∀ acc s, (step acc s).2 = acc.2 ++ [s]) :
    ∀ (syms : List PyStr) (acc : (PyStr → Option Quote) × List PyStr),
      (syms.foldl step acc).2 = acc.2 ++ syms := by
  intro syms
  induction syms with
  | nil => intro acc; simp
  | cons s rest ih =>
    intro acc
    rw [List.foldl_cons, ih, hstep]
    simp

theorem glp_raised_eq (hist : PyStr → HistResult) (tickers : List PyStr)
    (h : tickers.isEmpty = false) :
    get_latest_prices .raised hist tickers =
      ⟨((symbols_of tickers).foldl (fallback_step_error hist (sym_map_of tickers))
          (fun _ => none, [])).1,
       ((symbols_of tickers).foldl (fallback_step_error hist (sym_map_of tickers))
          (fun _ => none, [])).2,
       true⟩ := by
  simp only [get_latest_prices, h, Bool.false_eq_true, if_false]

theorem glp_empty_eq (hist : PyStr → HistResult) (tickers : List PyStr)
    (h : tickers.isEmpty = false) :
    get_latest_prices .emptyResult hist tickers =
      ⟨((symbols_of tickers).foldl (fallback_step_empty hist (sym_map_of tickers))
          (fun _ => none, [])).1,
       ((symbols_of tickers).foldl (fallback_step_empty hist (sym_map_of tickers))
          (fun _ => none, [])).2,
       true⟩ := by
  simp only [get_latest_prices, h, Bool.false_eq_true, if_false]

theorem glp_multi_eq (hist : PyStr → HistResult) (close : PyStr → Option (List ℚ))
    (tickers : List PyStr) (h : tickers.isEmpty = false) :
    get_latest_prices (.multi close) hist tickers =
      ⟨(symbols_of tickers).foldl (multi_step close (sym_map_of tickers)) (fun _ => none),
       [], true⟩ := by
  simp only [get_latest_prices, h, Bool.false_eq_true, if_false]

theorem multi_fold_null {close : PyStr → Option (List ℚ)} {sym_map : PyStr → PyStr}
    (hc : ∀ s, close s = none) :
    ∀ (syms : List PyStr) (r : PyStr → Option Quote),
      (∀ k, r k = none ∨ r k = some null_quote) →
      ∀ k, (syms.foldl (multi_step close sym_map) r) k = none ∨
        (syms.foldl (multi_step close sym_map) r) k = some null_quote := by
  intro syms
  induction syms with
  | nil => intro r hr k; exact hr k
  | cons s rest ih =>
    intro r hr k
    rw [List.foldl_cons]
    refine ih _ ?_ k
    intro k2
    simp only [multi_step, hc s]
    by_cases he : k2 = sym_map s
    · right; rw [if_pos he]
    · rw [if_neg he]
      exact hr k2

theorem fallback_error_all_null {hist : PyStr → HistResult} {sym_map : PyStr → PyStr}
    (hr : ∀ s, hist s = .raised) :
    ∀ (syms : List PyStr) (acc : (PyStr → Option Quote) × List PyStr),
      (∀ k, acc.1 k = none ∨ acc.1 k = some null_quote) →
      ∀ k, (syms.foldl (fallback_step_error hist sym_map) acc).1 k = none ∨
        (syms.foldl (fallback_step_error hist sym_map) acc).1 k = some null_quote := by
  intro syms
  induction syms with
  | nil => intro acc hacc k; exact hacc k
  | cons s rest ih =>
    intro acc hacc k
    rw [List.foldl_cons]
    refine ih _ ?_ k
    intro k2
    simp only [fallback_step_error, hr s]
    by_cases he : k2 = sym_map s
    · right; rw [if_pos he]
    · rw [if_neg he]
      exact hacc k2

theorem glp_raised_null (hist : PyStr → HistResult) (tks : List PyStr)
    (hr : ∀ s, hist s = .raised) :
    ∀ k, (get_latest_prices .raised hist tks).results k = none ∨
      (get_latest_prices .raised hist tks).results k = some null_quote := by
  intro k
  by_cases he : tks.isEmpty = true
  · left
    unfold get_latest_prices
    rw [if_pos he]
  · rw [glp_raised_eq hist tks (by revert he; cases tks.isEmpty <;> simp)]
    exact fallback_error_all_null hr (symbols_of tks) (fun _ => none, [])
      (fun _ => Or.inl rfl) k

-- ## C1: individual fallback — when it happens and when it does not

/-- C1 counterexample: one requested ticker "T"; the batch call succeeds
with a non-empty MultiIndex result that simply does not cover "T.NS", and
the per-symbol upstream would return the series [100, 110] if asked.  The
claim says the individual fetch is attempted before giving the symbol up
as null; in fact the fetch log is empty — no individual fetch happens —
and the symbol's price fields are set to null directly. -/
theorem no_fallback_on_partial_coverage :
    (get_latest_prices (.multi (fun _ => none))
        (fun _ => .returned [(100 : ℚ), 110]) [tickT]).fetched = [] ∧
    (get_latest_prices (.multi (fun _ => none))
        (fun _ => .returned [(100 : ℚ), 110]) [tickT]).results (pyUpper tickT) =
      some null_quote := by
  constructor
  · rfl
  · decide

/-- C1 (amended): the individual per-symbol fallback (same two-session
window, same change-percent formula) runs for every requested symbol when
the batch fetch raises or returns an empty result set; but when the batch
returns non-empty data that does not cover a symbol, that symbol's price
fields are set to null directly, with no individual fetch attempted. -/
theorem individual_fallback_cases (tickers : List PyStr) (hist : PyStr → HistResult)
    (close : PyStr → Option (List ℚ)) (h : tickers ≠ []) :
    (get_latest_prices .raised hist tickers).fetched = symbols_of tickers ∧
    (get_latest_prices .emptyResult hist tickers).fetched = symbols_of tickers ∧
    (get_latest_prices (.multi close) hist tickers).fetched = [] ∧
    ((∀ s, close s = none) →
      ∀ k, (get_latest_prices (.multi close) hist tickers).results k = none ∨
        (get_latest_prices (.multi close) hist tickers).results k = some null_quote) := by
  have hne : tickers.isEmpty = false := by
    cases tickers with
    | nil => exact absurd rfl h
    | cons a l => rfl
  refine ⟨?_, ?_, ?_, ?_⟩
  · rw [glp_raised_eq hist tickers hne]
    exact (foldl_log_append (fallback_step_error_log hist (sym_map_of tickers))
      (symbols_of tickers) (fun _ => none, [])).trans (List.nil_append _)
  · rw [glp_empty_eq hist tickers hne]
    exact (foldl_log_append (fallback_step_empty_log hist (sym_map_of tickers))
      (symbols_of tickers) (fun _ => none, [])).trans (List.nil_append _)
  · rw [glp_multi_eq hist close tickers hne]
  · intro hc k
    rw [glp_multi_eq hist close tickers hne]
    exact multi_fold_null hc (symbols_of tickers) (fun _ => none)
      (fun _ => Or.inl rfl) k

theorem individual_fallback_cases_witness :
    (get_latest_prices .raised histAllRaised [tickT]).fetched = symbols_of [tickT] ∧
    (get_latest_prices (.multi (fun _ => none)) histAllRaised [tickT]).fetched = [] ∧
    ((get_latest_prices (.multi (fun _ => none)) histAllRaised [tickT]).results tickT = none ∨
      (get_latest_prices (.multi (fun _ => none)) histAllRaised
        [tickT]).results tickT = some null_quote) :=
  ⟨(individual_fallback_cases [tickT] histAllRaised (fun _ => none) (by simp)).1,
   (individual_fallback_cases [tickT] histAllRaised (fun _ => none) (by simp)).2.2.1,
   (individual_fallback_cases [tickT] histAllRaised (fun _ => none) (by simp)).2.2.2
     (fun _ => rfl) tickT⟩

-- ## Response-dict lemmas

theorem any_key_iff (d : List (PyStr × PriceRec)) (k : PyStr) :
    d.any (fun p => decide (p.1 = k)) = true ↔ k ∈ dictKeys d := by
  rw [List.any_eq_true]
  constructor
  · rintro ⟨p, hp, he⟩
    rw [decide_eq_true_eq] at he
    exact List.mem_map.mpr ⟨p, hp, he⟩
  · intro hk
    obtain ⟨p, hp, he⟩ := List.mem_map.mp hk
    exact ⟨p, hp, decide_eq_true he⟩

theorem dictKeys_overwrite (d : List (PyStr × PriceRec)) (k : PyStr) (v : PriceRec) :
    dictKeys (d.map (fun p => if p.1 = k then (k, v) else p)) = dictKeys d := by
  unfold dictKeys
  rw [List.map_map]
  apply List.map_congr_left
  intro p _
  by_cases h : p.1 = k
  · simp [h]
  · simp [h]

theorem dictKeys_dictInsert (d : List (PyStr × PriceRec)) (k : PyStr) (v : PriceRec) :
    dictKeys (dictInsert d k v) =
      if k ∈ dictKeys d then dictKeys d else dictKeys d ++ [k] := by
  unfold dictInsert
  by_cases h : k ∈ dictKeys d
  · rw [if_pos ((any_key_iff d k).mpr h), if_pos h, dictKeys_overwrite]
  · rw [if_neg (fun hh => h ((any_key_iff d k).mp hh)), if_neg h]
    unfold dictKeys
    rw [List.map_append]
    rfl

theorem mem_dictInsert {d : List (PyStr × PriceRec)} {k : PyStr} {v : PriceRec}
    {e : PyStr × PriceRec} (h : e ∈ dictInsert d k v) : e ∈ d ∨ e = (k, v) := by
  unfold dictInsert at h
  by_cases hc : (d.any (fun p => decide (p.1 = k))) = true
  · rw [if_pos hc] at h
    obtain ⟨p, hp, he⟩ := List.mem_map.mp h
    by_cases hpk : p.1 = k
    · rw [if_pos hpk] at he
      right; exact he.symm
    · rw [if_neg hpk] at he
      left; rw [← he]; exact hp
  · rw [if_neg hc] at h
    rcases List.mem_append.mp h with h1 | h1
    · left; exact h1
    · right; simpa using h1

theorem dictGet_mem {d : List (PyStr × PriceRec)} {k : PyStr} {r : PriceRec}
    (h : dictGet d k = some r) : (k, r) ∈ d := by
  unfold dictGet at h
  obtain ⟨p, hp, hr⟩ := Option.map_eq_some'.mp h
  have h1 := List.find?_some hp
  rw [decide_eq_true_eq] at h1
  have h2 := List.mem_of_find?_eq_some hp
  exact (Prod.ext h1 hr : p = (k, r)) ▸ h2

theorem dictGet_isSome_of_mem_keys {d : List (PyStr × PriceRec)} {k : PyStr}
    (h : k ∈ dictKeys d) : ∃ r, dictGet d k = some r := by
  obtain ⟨p, hp, he⟩ := List.mem_map.mp h
  have hs : (d.find? (fun p => decide (p.1 = k))).isSome = true := by
    rw [List.find?_isSome]
    exact ⟨p, hp, decide_eq_true he⟩
  obtain ⟨q, hq⟩ := Option.isSome_iff_exists.mp hs
  exact ⟨q.2, by unfold dictGet; rw [hq]; rfl⟩

-- ## prices fold lemmas

theorem prices_step_fst (pd : PyStr → Option Quote) (oracle : PyStr → Option TickerMeta)
    (now : ℚ) (acc : List (PyStr × PriceRec) × Cache) (t : PyStr) :
    (prices_step pd oracle now acc t).1 =
      dictInsert acc.1 t
        { symbol := to_symbol t,
          name := (fetch_company_info oracle acc.2 now (to_symbol t)).1.name,
          description :=
            (fetch_company_info oracle acc.2 now (to_symbol t)).1.description.take 600,
          price := ((pd t).getD null_quote).price,
          change_pct := ((pd t).getD null_quote).change_pct } := rfl

theorem trunc_eq_take (tickers : List PyStr) :
    (if MAX < tickers.length then tickers.take MAX else tickers) = tickers.take MAX := by
  by_cases h : MAX < tickers.length
  · rw [if_pos h]
  · rw [if_neg h]
    exact (List.take_of_length_le (le_of_not_lt h)).symm

theorem prices_def (batch : BatchData) (hist : PyStr → HistResult)
    (oracle : PyStr → Option TickerMeta) (cache : Cache) (now : ℚ)
    (tickers0 : List PyStr) :
    prices batch hist oracle cache now tickers0 =
      (tickers0.take MAX).foldl
        (prices_step (get_latest_prices batch hist (tickers0.take MAX)).results oracle now)
        ([], cache) := by
  unfold prices
  rw [trunc_eq_take]

theorem prices_fold_keys (pd : PyStr → Option Quote)
    (oracle : PyStr → Option TickerMeta) (now : ℚ) :
    ∀ (ts : List PyStr) (acc : List (PyStr × PriceRec) × Cache),
      dictKeys ((ts.foldl (prices_step pd oracle now) acc).1) =
        ts.foldl (fun ks t => if t ∈ ks then ks else ks ++ [t]) (dictKeys acc.1) := by
  intro ts
  induction ts with
  | nil => intro acc; rfl
  | cons t rest ih =>
    intro acc
    rw [List.foldl_cons, List.foldl_cons, ih, prices_step_fst, dictKeys_dictInsert]

theorem mem_foldl_keyins (k : PyStr) :
    ∀ (ts ks : List PyStr),
      (k ∈ ts.foldl (fun ks t => if t ∈ ks then ks else ks ++ [t]) ks ↔
        k ∈ ks ∨ k ∈ ts) := by
  intro ts
  induction ts with
  | nil => intro ks; simp
  | cons t rest ih =>
    intro ks
    rw [List.foldl_cons, ih]
    by_cases h : t ∈ ks
    · rw [if_pos h]
      simp only [List.mem_cons]
      constructor
      · rintro (hk | hk)
        · exact Or.inl hk
        · exact Or.inr (Or.inr hk)
      · rintro (hk | rfl | hk)
        · exact Or.inl hk
        · exact Or.inl h
        · exact Or.inr hk
    · rw [if_neg h]
      simp only [List.mem_append, List.mem_singleton, List.mem_cons]
      tauto

theorem foldl_keyins_of_nodup :
    ∀ (ts ks : List PyStr), ts.Nodup → (∀ t ∈ ts, t ∉ ks) →
      ts.foldl (fun ks t => if t ∈ ks then ks else ks ++ [t]) ks = ks ++ ts := by
  intro ts
  induction ts with
  | nil => intro ks _ _; simp
  | cons t rest ih =>
    intro ks hnd hdisj
    rw [List.foldl_cons, if_neg (hdisj t (List.mem_cons_self t rest))]
    rw [ih (ks ++ [t]) (List.nodup_cons.mp hnd).2 ?_]
    · simp
    · intro t' ht'
      rw [List.mem_append, List.mem_singleton]
      rintro (hk | rfl)
      · exact hdisj t' (List.mem_cons_of_mem _ ht') hk
      · exact (List.nodup_cons.mp hnd).1 ht'

theorem prices_fold_entries (pd : PyStr → Option Quote)
    (oracle : PyStr → Option TickerMeta) (now : ℚ) (P : PyStr × PriceRec → Prop)
    (hP : ∀ (t : PyStr) (c : Cache), P (t,
      { symbol := to_symbol t,
        name := (fetch_company_info oracle c now (to_symbol t)).1.name,
        description :=
          (fetch_company_info oracle c now (to_symbol t)).1.description.take 600,
        price := ((pd t).getD null_quote).price,
        change_pct := ((pd t).getD null_quote).change_pct })) :
    ∀ (ts : List PyStr) (acc : List (PyStr × PriceRec) × Cache),
      (∀ e ∈ acc.1, P e) →
      ∀ e ∈ (ts.foldl (prices_step pd oracle now) acc).1, P e := by
  intro ts
  induction ts with
  | nil => intro acc h e he; exact h e he
  | cons t rest ih =>
    intro acc hacc e he
    rw [List.foldl_cons] at he
    refine ih _ ?_ e he
    intro e2 he2
    rw [prices_step_fst] at he2
    rcases mem_dictInsert he2 with h1 | h1
    · exact hacc e2 h1
    · rw [h1]
      exact hP t acc.2

-- ## C3: response key set

/-- C3: the key set of the /prices response equals exactly the requested
ticker list truncated to the 200-cap — no requested ticker missing, no
extra key — and for duplicate-free input the keys are precisely the first
200 tickers in input order; truncation is silent, not an error. -/
theorem prices_keys_exact (batch : BatchData) (hist : PyStr → HistResult)
    (oracle : PyStr → Option TickerMeta) (cache : Cache) (now : ℚ)
    (tickers0 : List PyStr) :
    (∀ k, k ∈ dictKeys (prices batch hist oracle cache now tickers0).1 ↔
      k ∈ tickers0.take MAX) ∧
    ((tickers0.take MAX).Nodup →
      dictKeys (prices batch hist oracle cache now tickers0).1 = tickers0.take MAX) := by
  constructor
  · intro k
    rw [prices_def, prices_fold_keys, mem_foldl_keyins]
    simp [dictKeys]
  · intro hnd
    rw [prices_def, prices_fold_keys,
      foldl_keyins_of_nodup _ _ hnd (by simp [dictKeys])]
    simp [dictKeys]

theorem prices_keys_exact_witness :
    dictKeys (prices .raised histAllRaised metaAllRaised cacheEmpty 0
      [tickT, tickU]).1 = [tickT, tickU] := by
  have h := (prices_keys_exact .raised histAllRaised metaAllRaised cacheEmpty 0
    [tickT, tickU]).2 (by decide)
  rw [List.take_of_length_le (by decide)] at h
  exact h

-- ## C9: description truncation

/-- C9: every description field in a record handed to the caller by
/prices has been truncated to at most 600 characters. -/
theorem description_truncated (batch : BatchData) (hist : PyStr → HistResult)
    (oracle : PyStr → Option TickerMeta) (cache : Cache) (now : ℚ)
    (tickers0 : List PyStr) (t : PyStr) (r : PriceRec)
    (h : dictGet (prices batch hist oracle cache now tickers0).1 t = some r) :
    r.description.length ≤ 600 := by
  have hmem := dictGet_mem h
  rw [prices_def] at hmem
  exact prices_fold_entries _ oracle now (fun e => e.2.description.length ≤ 600)
    (fun t' c => List.length_take_le 600 _) _ ([], cache) (by simp) (t, r) hmem

theorem description_truncated_witness :
    (⟨[84, 46, 78, 83], [84, 46, 78, 83], ([] : PyStr), none, none⟩ :
      PriceRec).description.length ≤ 600 :=
  description_truncated .raised histAllRaised metaAllRaised cacheEmpty 0 [tickT] tickT
    ⟨[84, 46, 78, 83], [84, 46, 78, 83], [], none, none⟩ (by decide)

-- ## C2: totality and failure conversion

/-- C2: for every behaviour of the upstream provider — raising, empty,
partial — the /prices operation assigns every requested ticker (after
truncation) a record with all five fields symbol, name, description,
price, change_pct present (the record type is total, mirroring that every
upstream failure is caught at its point of use and no exception reaches
the caller); and when the batch call raises and every individual fetch
raises too, the failure is converted into null price fields. -/
theorem prices_total_on_failure (batch : BatchData) (hist : PyStr → HistResult)
    (oracle : PyStr → Option TickerMeta) (cache : Cache) (now : ℚ)
    (tickers0 : List PyStr) (t : PyStr) (ht : t ∈ tickers0.take MAX) :
    ∃ r : PriceRec,
      dictGet (prices batch hist oracle cache now tickers0).1 t = some r ∧
      (batch = .raised → (∀ s, hist s = .raised) →
        r.price = none ∧ r.change_pct = none) := by
  have hkey : t ∈ dictKeys (prices batch hist oracle cache now tickers0).1 := by
    rw [prices_def, prices_fold_keys, mem_foldl_keyins]
    exact Or.inr ht
  obtain ⟨r, hr⟩ := dictGet_isSome_of_mem_keys hkey
  refine ⟨r, hr, ?_⟩
  rintro rfl hhist
  have hmem := dictGet_mem hr
  rw [prices_def] at hmem
  have hnull := glp_raised_null hist (tickers0.take MAX) hhist
  refine prices_fold_entries _ oracle now
    (fun e => e.2.price = none ∧ e.2.change_pct = none)
    (fun t' c => ?_) _ ([], cache) (by simp) (t, r) hmem
  rcases hnull t' with h1 | h1 <;> simp [h1, null_quote]

theorem prices_total_on_failure_witness :
    ∃ r : PriceRec,
      dictGet (prices .raised histAllRaised metaAllRaised cacheEmpty 0 [tickT]).1
        tickT = some r ∧
      (BatchData.raised = .raised → (∀ s, histAllRaised s = .raised) →
        r.price = none ∧ r.change_pct = none) :=
  prices_total_on_failure .raised histAllRaised metaAllRaised cacheEmpty 0 [tickT]
    tickT (by decide)
